import Mathlib

/-!
Shallow embedding of the `rust-mov-vm` interpreter (`src/main.rs`).

The machine state consists of:
* a register file of 36 signed 64-bit integers (`regs`, modelled as
  `Nat → Int`; only indices `0..35` are addressable, out-of-range
  indexing is a fault, as in Rust);
* a flat memory of `MEMORY_SIZE` unsigned 32-bit words (`mem`,
  modelled as `Nat → Nat`);
* the pending console-input byte stream (`inp`) and the emitted
  output (`out`), standing for the `termion` capability pair.

Fallible Rust operations (`unwrap`ped conversions, out-of-bounds
indexing, overflowing arithmetic — the checked, debug-profile
semantics) are modelled with `Option`: `none` is a panic/fault.
Signed 64-bit arithmetic uses `Int` with explicit range checks;
`Int.tdiv` / `Int.tmod` match Rust's truncating `/` and `%`.
-/

def MEMORY_SIZE : Nat := 1048576

/-- Pointwise update of a register bank (`buffer[i] = v`). -/
def upd (f : Nat → Int) (i : Nat) (v : Int) : Nat → Int :=
  fun j => if j = i then v else f j

/-- Pointwise update of the word memory (`buffer[i] = v`). -/
def updW (f : Nat → Nat) (i : Nat) (v : Nat) : Nat → Nat :=
  fun j => if j = i then v else f j

/-- The signed 64-bit range `[-2^63, 2^63)`. -/
def inI64 (x : Int) : Prop := -(2 ^ 63) ≤ x ∧ x < 2 ^ 63

instance (x : Int) : Decidable (inI64 x) := by
  unfold inI64; infer_instance

/-- A checked i64 result: Rust's arithmetic panics (debug profile) or the
checked conversions `try_into::<i64>().unwrap()` fault outside the range. -/
def checkedI64 (x : Int) : Option Int :=
  if inI64 x then some x else none

/-- `i64 -> usize` via `try_into().unwrap()` (64-bit target): fails exactly
on negative values. -/
def toUsize (v : Int) : Option Nat :=
  if 0 ≤ v then some v.toNat else none

/-- `i64 -> u64` via `try_into().unwrap()`: fails exactly on negative values. -/
def toU64 (v : Int) : Option Nat :=
  if 0 ≤ v then some v.toNat else none

/-- `usize` value of an `i64` under Rust's `as usize` cast: wraps mod `2^64`. -/
def usizeOfI64 (v : Int) : Nat := (v % (2 ^ 64 : Int)).toNat

/-- `char::from_u32(x.try_into().unwrap())` succeeds: `x` fits in `u32` and
is a Unicode scalar value (not a surrogate, at most `0x10FFFF`). -/
def validCharCode (v : Int) : Bool :=
  decide (0 ≤ v ∧ (v < 55296 ∨ (57344 ≤ v ∧ v ≤ 1114111)))

/-- One item emitted on the console: a character code, or the code-256
"clear screen" signal (pause plus escape sequence). -/
inductive OutEvent where
  | ch (code : Nat)
  | clear
deriving DecidableEq

/-- The whole machine state: `Registers.buffer`, `Memory.buffer`, and the
two halves of `Memory.io` (pending input bytes, emitted output). -/
structure MachState where
  regs : Nat → Int
  mem : Nat → Nat
  inp : List Nat
  out : List OutEvent

/-- `read_noblocking`: pulls the next item of the input stream; a byte `0`
(`Some(Ok(0))`) is mapped to `None`, like an empty stream. Returns the
polled value and the remaining stream. -/
def read_noblocking (inp : List Nat) : Option Nat × List Nat :=
  match inp with
  | [] => (none, [])
  | b :: rest => (if b = 0 then none else some b, rest)

/-- `Memory::load32`: bounds-checked word read (`self.buffer[address]`). -/
def Memory.load32 (m : Nat → Nat) (address : Nat) : Option Nat :=
  if address < MEMORY_SIZE then some (m address) else none

/-- `Memory::load_opcode`: split a 32-bit word into the high and low
16-bit halves `(i32 >> 16, i32 & 0xFFFF)`. -/
def Memory.load_opcode (w : Nat) : Nat × Nat :=
  (w >>> 16, w &&& 65535)

/-- `Memory::load64`: `buffer[address*2] * 2^32 + buffer[address*2+1]`,
faulting when the indexing is out of bounds. -/
def Memory.load64 (m : Nat → Nat) (address : Nat) : Option Nat :=
  if address * 2 + 1 < MEMORY_SIZE then
    some (m (address * 2) * 4294967296 + m (address * 2 + 1))
  else none

/-- `Memory::store64`: writes `value / 2^32` at `address*2` and
`value % 2^32` at `address*2+1`; faults on out-of-bounds indexing or
when `value / 2^32` does not fit a `u32` (i.e. `value ≥ 2^64`). -/
def Memory.store64 (m : Nat → Nat) (address : Nat) (value : Nat) :
    Option (Nat → Nat) :=
  if address * 2 + 1 < MEMORY_SIZE then
    if value / 4294967296 < 4294967296 then
      some (updW (updW m (address * 2) (value / 4294967296))
        (address * 2 + 1) (value % 4294967296))
    else none
  else none

/-- One word of `Memory::store`'s inner loop: starting from `0`, four times
`buffer[i] = buffer[i] * 256 + data[..]`, i.e. big-endian packing. -/
def pack4 (data : List Nat) (off : Nat) : Nat :=
  ((data.getD off 0 * 256 + data.getD (off + 1) 0) * 256
    + data.getD (off + 2) 0) * 256 + data.getD (off + 3) 0

/-- The fill loop of `Memory::store`: writes `k` consecutive words starting
at index `i`, word `i` taking bytes `(i-base)*4 ..= (i-base)*4+3`. The
guard models the `data[(i-base)*4+j]` index panic. -/
def storeWords (data : List Nat) (base : Nat) :
    (Nat → Nat) → Nat → Nat → Option (Nat → Nat)
  | m, _, 0 => some m
  | m, i, k + 1 =>
    if (i - base) * 4 + 3 < data.length then
      storeWords data base (updW m i (pack4 data ((i - base) * 4))) (i + 1) k
    else none

/-- `Memory::store`: `data_end = min(base + data.len()/4, MEMORY_SIZE) - 1`,
then fill the words of `base..data_end`. When the minimum is `0` the `usize`
subtraction underflows (debug panic; in release the wrapped bound drives the
loop out of bounds), modelled as a fault. -/
def Memory.store (m : Nat → Nat) (data : List Nat) (base : Nat) :
    Option (Nat → Nat) :=
  let e := min (base + data.length / 4) MEMORY_SIZE
  if e = 0 then none
  else storeWords data base m base (e - 1 - base)

/-- The trigger callbacks registered by `Registers::init_triggers`,
identified by their source names. -/
inductive Trig where
  | add_trig
  | sub_trig
  | mul_trig
  | div_trig
  | tlt_trig
  | cio_trig
  | io_trig
  | atz_trig
  | mem_trig
deriving DecidableEq

/-- Run one trigger callback. `trig` is the discriminator the interpreter
passes: `1` from `set`, `0` from `get`. Faults (`unwrap` panics, checked
arithmetic) yield `none`. -/
def runTrig (cb : Trig) (trig : Nat) (s : MachState) : Option MachState :=
  match cb with
  | .add_trig =>
    (checkedI64 (s.regs 0 + s.regs 1)).map
      (fun x => { s with regs := upd s.regs 2 x })
  | .sub_trig =>
    (checkedI64 (s.regs 3 - s.regs 4)).map
      (fun x => { s with regs := upd s.regs 5 x })
  | .mul_trig =>
    (checkedI64 (s.regs 6 * s.regs 7)).map
      (fun x => { s with regs := upd s.regs 8 x })
  | .div_trig =>
    let div0 := s.regs 9
    let div1 := s.regs 10
    match (if div1 ≠ 0 then checkedI64 (div0.tdiv div1) else some div0) with
    | none => none
    | some q =>
      match (if div1 ≠ 0 then checkedI64 (div0.tmod div1) else some 0) with
      | none => none
      | some r => some { s with regs := upd (upd s.regs 11 q) 12 r }
  | .tlt_trig =>
    some { s with regs := upd s.regs 15 (if s.regs 13 < s.regs 14 then 1 else 0) }
  | .cio_trig =>
    if trig = 1 then
      if s.regs 16 = 256 then
        some { s with out := s.out ++ [OutEvent.clear] }
      else if validCharCode (s.regs 16) then
        some { s with out := s.out ++ [OutEvent.ch (s.regs 16).toNat] }
      else none
    else
      match read_noblocking s.inp with
      | (some v, rest) => some { s with regs := upd s.regs 16 (v : Int), inp := rest }
      | (none, rest) => some { s with regs := upd s.regs 16 (-1), inp := rest }
  | .io_trig =>
    if trig = 1 then
      if validCharCode (s.regs 18) then
        some { s with out := s.out ++ [OutEvent.ch (s.regs 18).toNat] }
      else none
    else
      some { s with regs := upd s.regs 19 10 }
  | .atz_trig =>
    some { s with regs := upd s.regs 23 (if s.regs 20 = 0 then s.regs 21 else s.regs 22) }
  | .mem_trig =>
    if trig = 1 then
      match toUsize (s.regs 26), toU64 (s.regs 24) with
      | some a, some v =>
        (Memory.store64 s.mem a v).map (fun m => { s with mem := m })
      | _, _ => none
    else
      match toUsize (s.regs 26) with
      | none => none
      | some a =>
        match Memory.load64 s.mem a with
        | none => none
        | some v =>
          if (v : Int) < 2 ^ 63 then
            some { s with regs := upd s.regs 24 (v : Int) }
          else none

/-- The write-trigger lists built by `init_triggers` (the `.1.push` calls),
as a map from register index to the registered callbacks in order. -/
def setTrigs (i : Nat) : List Trig :=
  if i = 0 then [.add_trig] else if i = 1 then [.add_trig]
  else if i = 3 then [.sub_trig] else if i = 4 then [.sub_trig]
  else if i = 6 then [.mul_trig] else if i = 7 then [.mul_trig]
  else if i = 9 then [.div_trig] else if i = 10 then [.div_trig]
  else if i = 13 then [.tlt_trig] else if i = 14 then [.tlt_trig]
  else if i = 16 then [.cio_trig]
  else if i = 18 then [.io_trig]
  else if i = 20 then [.atz_trig] else if i = 21 then [.atz_trig]
  else if i = 22 then [.atz_trig]
  else if i = 24 then [.mem_trig]
  else if i = 26 then [.mem_trig]
  else []

/-- The read-trigger lists built by `init_triggers` (the `.0.push` calls). -/
def getTrigs (i : Nat) : List Trig :=
  if i = 2 then [.add_trig] else if i = 5 then [.sub_trig]
  else if i = 8 then [.mul_trig]
  else if i = 11 then [.div_trig] else if i = 12 then [.div_trig]
  else if i = 15 then [.tlt_trig]
  else if i = 16 then [.cio_trig]
  else if i = 19 then [.io_trig]
  else if i = 23 then [.atz_trig]
  else if i = 24 then [.mem_trig]
  else []

/-- Run a list of callbacks in order, stopping at the first fault. -/
def runTrigs (l : List Trig) (trig : Nat) (s : MachState) : Option MachState :=
  match l with
  | [] => some s
  | cb :: rest =>
    match runTrig cb trig s with
    | none => none
    | some s' => runTrigs rest trig s'

/-- `Registers::set`: store the value at the index (fault when the index is
out of the 36-slot bank), then run the write-triggers in order. -/
def Registers.set (i : Nat) (value : Int) (s : MachState) : Option MachState :=
  if i < 36 then
    runTrigs (setTrigs i) 1 { s with regs := upd s.regs i value }
  else none

/-- `Registers::get`: run the read-triggers in order, then return the
current value at the index (fault when the index is out of range). -/
def Registers.get (i : Nat) (s : MachState) : Option (Int × MachState) :=
  if i < 36 then
    (runTrigs (getTrigs i) 0 s).map (fun s' => (s'.regs i, s'))
  else none

/-- Source-operand resolution in the interpreter loop: a set high bit
(`src & 0x8000 != 0`) makes the low 15 bits a non-negative immediate,
otherwise the operand is a triggered register read of `src`. -/
def srcVal (src : Nat) (s : MachState) : Option (Int × MachState) :=
  if src &&& 32768 ≠ 0 then some (((src &&& 32767 : Nat) : Int), s)
  else Registers.get src s

/-- Result of one iteration of the interpreter loop. -/
inductive TickRes where
  | halt
  | fault
  | cont (s : MachState)

/-- One tick of the interpreter loop in `main`: read the counter register
directly (`regs.buffer[27] as usize`), exit when it addresses past the
memory, otherwise fetch, decode, resolve the source operand, advance the
counter by a direct buffer write, and perform the destination write. -/
def tick (s : MachState) : TickRes :=
  let addr := usizeOfI64 (s.regs 27)
  if MEMORY_SIZE ≤ addr then .halt
  else
    let p := Memory.load_opcode (s.mem addr)
    match srcVal p.1 s with
    | none => .fault
    | some (val, s1) =>
      match Registers.set p.2 val
          { s1 with regs := upd s1.regs 27 ((addr : Int) + 1) } with
      | none => .fault
      | some s2 => .cont s2

/-- `k` successfully continued ticks. -/
def ticks : Nat → MachState → Option MachState
  | 0, s => some s
  | k + 1, s =>
    match tick s with
    | .cont s' => ticks k s'
    | _ => none

/-- Result of running the interpreter loop to completion. -/
inductive LoopRes where
  | spin
  | fault
  | done (tickCount : Nat) (finalCounter : Int)

/-- The interpreter loop of `main`, with fuel: on exit it reports the tick
counter `i` (incremented once per executed instruction) and the final
value of the counter register. -/
def runLoop : Nat → Nat → MachState → LoopRes
  | 0, _, _ => .spin
  | fuel + 1, i, s =>
    match tick s with
    | .halt => .done i (s.regs 27)
    | .fault => .fault
    | .cont s' => runLoop fuel (i + 1) s'

/-- The all-zero machine state (fresh register bank and memory). -/
def zeroState : MachState :=
  { regs := fun _ => 0, mem := fun _ => 0, inp := [], out := [] }

/-! ### Helper lemmas about trigger runs -/

/-- The register indices a callback may write are fixed: no callback ever
writes outside `{2, 5, 8, 11, 12, 15, 16, 19, 23, 24}`. -/
theorem runTrig_regs_pres {cb : Trig} {ph : Nat} {s s' : MachState}
    (h : runTrig cb ph s = some s') (j : Nat)
    (hj : j ≠ 2 ∧ j ≠ 5 ∧ j ≠ 8 ∧ j ≠ 11 ∧ j ≠ 12 ∧ j ≠ 15 ∧ j ≠ 16 ∧
      j ≠ 19 ∧ j ≠ 23 ∧ j ≠ 24) :
    s'.regs j = s.regs j := by
  obtain ⟨h2, h5, h8, h11, h12, h15, h16, h19, h23, h24⟩ := hj
  cases cb <;> simp only [runTrig] at h
  case add_trig =>
    rw [Option.map_eq_some'] at h
    obtain ⟨x, -, rfl⟩ := h
    simp [upd, h2]
  case sub_trig =>
    rw [Option.map_eq_some'] at h
    obtain ⟨x, -, rfl⟩ := h
    simp [upd, h5]
  case mul_trig =>
    rw [Option.map_eq_some'] at h
    obtain ⟨x, -, rfl⟩ := h
    simp [upd, h8]
  case div_trig =>
    split at h
    · exact absurd h (by simp)
    · split at h
      · exact absurd h (by simp)
      · obtain rfl := Option.some.inj h
        simp [upd, h11, h12]
  case tlt_trig =>
    obtain rfl := Option.some.inj h
    simp [upd, h15]
  case cio_trig =>
    split at h
    · split at h
      · obtain rfl := Option.some.inj h; rfl
      · split at h
        · obtain rfl := Option.some.inj h; rfl
        · exact absurd h (by simp)
    · split at h <;>
      · obtain rfl := Option.some.inj h
        simp [upd, h16]
  case io_trig =>
    split at h
    · split at h
      · obtain rfl := Option.some.inj h; rfl
      · exact absurd h (by simp)
    · obtain rfl := Option.some.inj h
      simp [upd, h19]
  case atz_trig =>
    obtain rfl := Option.some.inj h
    simp [upd, h23]
  case mem_trig =>
    split at h
    · split at h
      · rw [Option.map_eq_some'] at h
        obtain ⟨m, -, rfl⟩ := h
        rfl
      · exact absurd h (by simp)
    · split at h
      · exact absurd h (by simp)
      · split at h
        · exact absurd h (by simp)
        · split at h
          · obtain rfl := Option.some.inj h
            simp [upd, h24]
          · exact absurd h (by simp)

/-- Run from `set` (discriminator `1`): the write set shrinks to
`{2, 5, 8, 11, 12, 15, 23}` — the I/O and memory callbacks write no
register at all on the write phase. -/
theorem runTrig_set_regs_pres {cb : Trig} {s s' : MachState}
    (h : runTrig cb 1 s = some s') (j : Nat)
    (hj : j ≠ 2 ∧ j ≠ 5 ∧ j ≠ 8 ∧ j ≠ 11 ∧ j ≠ 12 ∧ j ≠ 15 ∧ j ≠ 23) :
    s'.regs j = s.regs j := by
  obtain ⟨h2, h5, h8, h11, h12, h15, h23⟩ := hj
  cases cb <;> simp only [runTrig] at h
  case add_trig =>
    rw [Option.map_eq_some'] at h
    obtain ⟨x, -, rfl⟩ := h
    simp [upd, h2]
  case sub_trig =>
    rw [Option.map_eq_some'] at h
    obtain ⟨x, -, rfl⟩ := h
    simp [upd, h5]
  case mul_trig =>
    rw [Option.map_eq_some'] at h
    obtain ⟨x, -, rfl⟩ := h
    simp [upd, h8]
  case div_trig =>
    split at h
    · exact absurd h (by simp)
    · split at h
      · exact absurd h (by simp)
      · obtain rfl := Option.some.inj h
        simp [upd, h11, h12]
  case tlt_trig =>
    obtain rfl := Option.some.inj h
    simp [upd, h15]
  case cio_trig =>
    rw [if_pos trivial] at h
    split at h
    · obtain rfl := Option.some.inj h; rfl
    · split at h
      · obtain rfl := Option.some.inj h; rfl
      · exact absurd h (by simp)
  case io_trig =>
    rw [if_pos trivial] at h
    split at h
    · obtain rfl := Option.some.inj h; rfl
    · exact absurd h (by simp)
  case atz_trig =>
    obtain rfl := Option.some.inj h
    simp [upd, h23]
  case mem_trig =>
    rw [if_pos trivial] at h
    split at h
    · rw [Option.map_eq_some'] at h
      obtain ⟨m, -, rfl⟩ := h
      rfl
    · exact absurd h (by simp)

/-- Lift of `runTrig_regs_pres` to trigger lists. -/
theorem runTrigs_regs_pres {l : List Trig} {ph : Nat} {s s' : MachState}
    (h : runTrigs l ph s = some s') (j : Nat)
    (hj : j ≠ 2 ∧ j ≠ 5 ∧ j ≠ 8 ∧ j ≠ 11 ∧ j ≠ 12 ∧ j ≠ 15 ∧ j ≠ 16 ∧
      j ≠ 19 ∧ j ≠ 23 ∧ j ≠ 24) :
    s'.regs j = s.regs j := by
  induction l generalizing s with
  | nil => obtain rfl := Option.some.inj h; rfl
  | cons cb rest ih =>
    simp only [runTrigs] at h
    split at h
    · exact absurd h (by simp)
    · rw [ih h]
      exact runTrig_regs_pres (by assumption) j hj

/-- No trigger callback ever writes the counter register 27. -/
theorem runTrigs_pres27 {l : List Trig} {ph : Nat} {s s' : MachState}
    (h : runTrigs l ph s = some s') : s'.regs 27 = s.regs 27 :=
  runTrigs_regs_pres h 27 (by omega)

/-- `Registers.get` leaves the counter register 27 unchanged. -/
theorem Registers.get_pres27 {i : Nat} {v : Int} {s s' : MachState}
    (h : Registers.get i s = some (v, s')) : s'.regs 27 = s.regs 27 := by
  unfold Registers.get at h
  split at h
  · rw [Option.map_eq_some'] at h
    obtain ⟨s1, h1, h2⟩ := h
    obtain ⟨-, rfl⟩ := Prod.mk.inj h2
    exact runTrigs_pres27 h1
  · exact absurd h (by simp)

/-- Lift of `runTrig_set_regs_pres` to trigger lists. -/
theorem runTrigs_set_regs_pres {l : List Trig} {s s' : MachState}
    (h : runTrigs l 1 s = some s') (j : Nat)
    (hj : j ≠ 2 ∧ j ≠ 5 ∧ j ≠ 8 ∧ j ≠ 11 ∧ j ≠ 12 ∧ j ≠ 15 ∧ j ≠ 23) :
    s'.regs j = s.regs j := by
  induction l generalizing s with
  | nil => obtain rfl := Option.some.inj h; rfl
  | cons cb rest ih =>
    simp only [runTrigs] at h
    split at h
    · exact absurd h (by simp)
    · rw [ih h]
      exact runTrig_set_regs_pres (by assumption) j hj

/-- After a successful `Registers.set i v`, register `i` holds `v`: the
write-triggers registered at an index never overwrite that index. -/
theorem Registers.set_stores {i : Nat} {v : Int} {s s' : MachState}
    (h : Registers.set i v s = some s') : s'.regs i = v := by
  unfold Registers.set at h
  split at h
  · by_cases hi : i = 2 ∨ i = 5 ∨ i = 8 ∨ i = 11 ∨ i = 12 ∨ i = 15 ∨ i = 23
    · have hl : setTrigs i = [] := by
        rcases hi with rfl | rfl | rfl | rfl | rfl | rfl | rfl <;> rfl
      rw [hl] at h
      obtain rfl := Option.some.inj h
      simp [upd]
    · push_neg at hi
      rw [runTrigs_set_regs_pres h i hi]
      simp [upd]
  · exact absurd h (by simp)

/-- A successful `Registers.set` at an index other than 27 leaves the
counter register unchanged. -/
theorem Registers.set_pres27 {i : Nat} {v : Int} {s s' : MachState}
    (h : Registers.set i v s = some s') (hi : i ≠ 27) :
    s'.regs 27 = s.regs 27 := by
  unfold Registers.set at h
  split at h
  · rw [runTrigs_set_regs_pres h 27 (by omega)]
    simp [upd, Ne.symm hi]
  · exact absurd h (by simp)

/-- A resolved source operand leaves the counter register unchanged:
immediates touch nothing, and register reads only run read-triggers. -/
theorem srcVal_pres27 {src : Nat} {v : Int} {s s1 : MachState}
    (h : srcVal src s = some (v, s1)) : s1.regs 27 = s.regs 27 := by
  unfold srcVal at h
  split at h
  · obtain ⟨-, rfl⟩ := Prod.mk.inj (Option.some.inj h)
    rfl
  · exact Registers.get_pres27 h

/-- Characterization of a halting tick: the loop exits exactly when the
counter register, cast `as usize`, addresses at or past `MEMORY_SIZE`. -/
theorem tick_halt_iff {s : MachState} :
    tick s = TickRes.halt ↔ MEMORY_SIZE ≤ usizeOfI64 (s.regs 27) := by
  simp only [tick]
  by_cases hlt : MEMORY_SIZE ≤ usizeOfI64 (s.regs 27)
  · rw [if_pos hlt]
    exact iff_of_true rfl hlt
  · rw [if_neg hlt]
    refine iff_of_false ?_ hlt
    cases hvs : srcVal (Memory.load_opcode (s.mem (usizeOfI64 (s.regs 27)))).1 s with
    | none => simp only [hvs]; exact fun h => TickRes.noConfusion h
    | some p =>
      obtain ⟨val, s1⟩ := p
      simp only [hvs]
      cases hset : Registers.set (Memory.load_opcode (s.mem (usizeOfI64 (s.regs 27)))).2 val
          { s1 with regs := upd s1.regs 27 ((usizeOfI64 (s.regs 27) : Int) + 1) } with
      | none => simp only [hset]; exact fun h => TickRes.noConfusion h
      | some s2 => simp only [hset]; exact fun h => TickRes.noConfusion h

/-- Characterization of a continuing tick: fetch address in range, source
operand resolved, counter advanced by a direct buffer write, then the
destination write performed on the advanced state. -/
theorem tick_cont_iff {s s' : MachState} :
    tick s = TickRes.cont s' ↔
      usizeOfI64 (s.regs 27) < MEMORY_SIZE ∧
      ∃ val s1,
        srcVal (Memory.load_opcode (s.mem (usizeOfI64 (s.regs 27)))).1 s =
          some (val, s1) ∧
        Registers.set (Memory.load_opcode (s.mem (usizeOfI64 (s.regs 27)))).2 val
          { s1 with regs := upd s1.regs 27 ((usizeOfI64 (s.regs 27) : Int) + 1) } =
          some s' := by
  simp only [tick]
  by_cases hlt : MEMORY_SIZE ≤ usizeOfI64 (s.regs 27)
  · rw [if_pos hlt]
    refine iff_of_false (fun h => TickRes.noConfusion h) ?_
    rintro ⟨h1, -⟩
    omega
  · rw [if_neg hlt]
    cases hvs : srcVal (Memory.load_opcode (s.mem (usizeOfI64 (s.regs 27)))).1 s with
    | none =>
      simp only [hvs]
      refine iff_of_false (fun h => TickRes.noConfusion h) ?_
      rintro ⟨-, val, s1, hv, -⟩
      exact Option.noConfusion hv
    | some p =>
      obtain ⟨val, s1⟩ := p
      simp only [hvs]
      cases hset : Registers.set (Memory.load_opcode (s.mem (usizeOfI64 (s.regs 27)))).2 val
          { s1 with regs := upd s1.regs 27 ((usizeOfI64 (s.regs 27) : Int) + 1) } with
      | none =>
        simp only [hset]
        refine iff_of_false (fun h => TickRes.noConfusion h) ?_
        rintro ⟨-, val', s1', hv, hw⟩
        obtain ⟨h1, h2⟩ := Prod.mk.inj (Option.some.inj hv)
        rw [← h1, ← h2] at hw
        rw [hset] at hw
        exact Option.noConfusion hw
      | some s2 =>
        simp only [hset]
        constructor
        · intro h
          obtain rfl := TickRes.cont.inj h
          exact ⟨by omega, val, s1, rfl, hset⟩
        · rintro ⟨-, val', s1', hv, hw⟩
          obtain ⟨h1, h2⟩ := Prod.mk.inj (Option.some.inj hv)
          rw [← h1, ← h2] at hw
          rw [hset] at hw
          rw [Option.some.inj hw]

/-- C1: in every continuing tick the counter register 27 is set to the
fetch address plus one before the destination write; a destination write
to register 27 therefore overrides the advance and becomes the counter
(hence the fetch address) for the next tick, while any other destination
leaves the next fetch address at the previous fetch address plus one. -/
theorem tick_counter_advance {s s' : MachState}
    (h : tick s = TickRes.cont s') :
    ((Memory.load_opcode (s.mem (usizeOfI64 (s.regs 27)))).2 ≠ 27 →
      s'.regs 27 = (usizeOfI64 (s.regs 27) : Int) + 1 ∧
      usizeOfI64 (s'.regs 27) = usizeOfI64 (s.regs 27) + 1) ∧
    ((Memory.load_opcode (s.mem (usizeOfI64 (s.regs 27)))).2 = 27 →
      ∀ v s1,
        srcVal (Memory.load_opcode (s.mem (usizeOfI64 (s.regs 27)))).1 s =
          some (v, s1) →
        s'.regs 27 = v) := by
  rw [tick_cont_iff] at h
  obtain ⟨hlt, val, s1, hs, hset⟩ := h
  constructor
  · intro hdst
    have h27 := Registers.set_pres27 hset hdst
    simp [upd] at h27
    refine ⟨h27, ?_⟩
    have hconv : ∀ a : Nat, a < MEMORY_SIZE → usizeOfI64 ((a : Int) + 1) = a + 1 := by
      intro a ha
      simp only [usizeOfI64, MEMORY_SIZE] at *
      omega
    rw [h27, hconv _ hlt]
  · intro hdst v s1' hv
    rw [hs] at hv
    obtain ⟨hval, -⟩ := Prod.mk.inj (Option.some.inj hv)
    rw [hdst] at hset
    rw [Registers.set_stores hset, ← hval]

/-- A program that jumps: word `0x8005_001B` (immediate 5, destination 27). -/
def jmpState : MachState := { zeroState with mem := updW zeroState.mem 0 2147811355 }

/-- The state after one tick of `jmpState`. -/
def jmpAfter : MachState :=
  { jmpState with regs := upd (upd jmpState.regs 27 (((0 : Nat) : Int) + 1)) 27 5 }

/-- Witness for C1: executing `0x8005_001B` at address 0 leaves 5 (not the
default 1) in the counter register. -/
theorem tick_counter_advance_witness : jmpAfter.regs 27 = 5 :=
  (@tick_counter_advance jmpState jmpAfter (by rfl)).2 (by rfl) 5 jmpState (by rfl)

/-- The loop skeleton: a reported `done n pc` means exactly `n - i` further
instructions executed from `s`, then the halt test fired with `pc` being
the counter register of the halting state. -/
theorem runLoop_done {fuel i n : Nat} {pc : Int} {s : MachState}
    (h : runLoop fuel i s = LoopRes.done n pc) :
    i ≤ n ∧ ∃ sf, ticks (n - i) s = some sf ∧ tick sf = TickRes.halt ∧
      pc = sf.regs 27 := by
  induction fuel generalizing i s with
  | zero => exact LoopRes.noConfusion h
  | succ fuel ih =>
    simp only [runLoop] at h
    cases htick : tick s with
    | halt =>
      simp only [htick] at h
      obtain ⟨rfl, rfl⟩ := LoopRes.done.inj h
      exact ⟨le_refl _, s, by simp [ticks], htick, rfl⟩
    | fault => simp only [htick] at h; exact LoopRes.noConfusion h
    | cont s2 =>
      simp only [htick] at h
      obtain ⟨h1, sf, h2, h3, h4⟩ := ih h
      refine ⟨by omega, sf, ?_, h3, h4⟩
      have hn : n - i = (n - (i + 1)) + 1 := by omega
      rw [hn]
      simp only [ticks, htick]
      exact h2

/-- C2 (amended): the loop exits iff the counter register read at the start
of the tick is negative or at least `MEMORY_SIZE` (the `as usize` cast sends
negative counters past the boundary as well — not only values ≥ capacity);
no instruction runs in the halting tick, and a reported `done n pc` means
exactly `n` instructions were executed before the halt test fired, `pc`
being the final counter value. -/
theorem loop_exit_characterization :
    (∀ s : MachState, inI64 (s.regs 27) →
      (tick s = TickRes.halt ↔
        s.regs 27 < 0 ∨ (MEMORY_SIZE : Int) ≤ s.regs 27)) ∧
    (∀ fuel n (pc : Int) (s : MachState),
      runLoop fuel 0 s = LoopRes.done n pc →
      ∃ sf, ticks n s = some sf ∧ tick sf = TickRes.halt ∧ pc = sf.regs 27) := by
  constructor
  · intro s hin
    rw [tick_halt_iff]
    obtain ⟨h1, h2⟩ := hin
    simp only [usizeOfI64, MEMORY_SIZE] at *
    constructor <;> intro h <;> omega
  · intro fuel n pc s h
    obtain ⟨-, sf, h2, h3, h4⟩ := runLoop_done h
    exact ⟨sf, by simpa using h2, h3, h4⟩

/-- A state whose counter equals the capacity exactly. -/
def pcAtCap : MachState := { zeroState with regs := upd zeroState.regs 27 1048576 }

/-- Witness for C2: with counter 1048576 the tick halts, and a 1-fuel run
reports 0 executed ticks with final counter 1048576. -/
theorem loop_exit_characterization_witness :
    (tick pcAtCap = TickRes.halt ↔
      pcAtCap.regs 27 < 0 ∨ (MEMORY_SIZE : Int) ≤ pcAtCap.regs 27) ∧
    (∃ sf, ticks 0 pcAtCap = some sf ∧ tick sf = TickRes.halt ∧
      (1048576 : Int) = sf.regs 27) :=
  ⟨loop_exit_characterization.1 pcAtCap (by decide),
   loop_exit_characterization.2 1 0 1048576 pcAtCap (by rfl)⟩

/-- A state whose counter register holds `-1`. -/
def negPC : MachState := { zeroState with regs := upd zeroState.regs 27 (-1) }

/-- Counterexample to C2 as stated: with counter value `-1` — which is NOT
greater than or equal to the memory capacity — the loop still exits,
because the `as usize` cast wraps `-1` to `2^64 - 1`. -/
theorem loop_exit_negative_counter :
    tick negPC = TickRes.halt ∧ negPC.regs 27 < (MEMORY_SIZE : Int) :=
  ⟨rfl, by decide⟩

/-- C3: decoding splits a word into high/low 16-bit halves; a set high bit
of `src` makes the low 15 bits a non-negative immediate (word `0x8003_0014`
gives immediate 3, destination `0x0014`), otherwise the operand is a
triggered register read of `src` (word `0x0003_0014` gives `src = 3`,
destination `0x0014`). -/
theorem instruction_decode :
    (∀ w : Nat, Memory.load_opcode w = (w / 65536, w % 65536)) ∧
    (∀ (src : Nat) (s : MachState), src &&& 32768 ≠ 0 →
      srcVal src s = some (((src &&& 32767 : Nat) : Int), s)) ∧
    (∀ (src : Nat) (s : MachState), src &&& 32768 = 0 →
      srcVal src s = Registers.get src s) ∧
    Memory.load_opcode 2147680276 = (32771, 20) ∧
    (∀ s : MachState, srcVal 32771 s = some (3, s)) ∧
    Memory.load_opcode 196628 = (3, 20) ∧
    (∀ s : MachState, srcVal 3 s = Registers.get 3 s) := by
  refine ⟨?_, ?_, ?_, rfl, fun s => rfl, rfl, fun s => rfl⟩
  · intro w
    have h1 : w >>> 16 = w / 65536 := Nat.shiftRight_eq_div_pow w 16
    have h2 : w &&& 65535 = w % 65536 := Nat.and_pow_two_sub_one_eq_mod w 16
    simp [Memory.load_opcode, h1, h2]
  · intro src s h
    simp [srcVal, h]
  · intro src s h
    simp [srcVal, h]

/-- Witness for C3: the branch facts applied at words `0x8003_0014` and
`0x0003_0014` and the zero state. -/
theorem instruction_decode_witness :
    Memory.load_opcode 2147680276 = (2147680276 / 65536, 2147680276 % 65536) ∧
    srcVal 32771 zeroState = some (((32771 &&& 32767 : Nat) : Int), zeroState) ∧
    srcVal 3 zeroState = Registers.get 3 zeroState :=
  ⟨instruction_decode.1 2147680276,
   instruction_decode.2.1 32771 zeroState (by decide),
   instruction_decode.2.2.1 3 zeroState (by decide)⟩

/-- C7: reading register 23 re-evaluates the conditional select from the
current contents of registers 20, 21, 22 on every read — the value read is
the "ifzero" operand 21 when register 20 is zero and the "ifnonzero"
operand 22 otherwise — and after setting registers 20, 21, 22 to 2, 5, 6
the read of register 23 yields 6. -/
theorem conditional_select :
    (∀ s : MachState,
      Registers.get 23 s =
        some (if s.regs 20 = 0 then s.regs 21 else s.regs 22,
          { s with
            regs := upd s.regs 23 (if s.regs 20 = 0 then s.regs 21 else s.regs 22) })) ∧
    ((((Registers.set 20 2 zeroState).bind (Registers.set 21 5)).bind
        (Registers.set 22 6)).bind (Registers.get 23)).map Prod.fst =
      some 6 :=
  ⟨fun _ => rfl, rfl⟩

/-- C8: storing a 64-bit value at a double-word address in range and
loading it back returns the value; the pair is stored big-endian — high
32-bit word at index `2*a`, low word at `2*a + 1`. -/
theorem double_word_round_trip (m : Nat → Nat) (a v : Nat)
    (hv : v < 4294967296 * 4294967296) (ha : a * 2 + 1 < MEMORY_SIZE) :
    ∃ m', Memory.store64 m a v = some m' ∧
      Memory.load64 m' a = some v ∧
      m' (a * 2) = v / 4294967296 ∧ m' (a * 2 + 1) = v % 4294967296 := by
  have hdiv : v / 4294967296 < 4294967296 := by omega
  have hne : a * 2 ≠ a * 2 + 1 := by omega
  have e1 : updW (updW m (a * 2) (v / 4294967296)) (a * 2 + 1)
      (v % 4294967296) (a * 2) = v / 4294967296 := by
    simp [updW, hne]
  have e2 : updW (updW m (a * 2) (v / 4294967296)) (a * 2 + 1)
      (v % 4294967296) (a * 2 + 1) = v % 4294967296 := by
    simp [updW]
  refine ⟨updW (updW m (a * 2) (v / 4294967296)) (a * 2 + 1) (v % 4294967296),
    ?_, ?_, e1, e2⟩
  · simp [Memory.store64, ha, hdiv]
  · simp only [Memory.load64]
    rw [if_pos ha, e1, e2]
    congr 1
    omega

/-- Witness for C8: value `2^33 + 7` at double-word address 3. -/
theorem double_word_round_trip_witness :
    ∃ m', Memory.store64 (fun _ => 0) 3 8589934599 = some m' ∧
      Memory.load64 m' 3 = some 8589934599 ∧
      m' (3 * 2) = 8589934599 / 4294967296 ∧
      m' (3 * 2 + 1) = 8589934599 % 4294967296 :=
  double_word_round_trip (fun _ => 0) 3 8589934599 (by norm_num)
    (by norm_num [MEMORY_SIZE])

/-- C10: a read of the memory data-port register 24 succeeds exactly when
the address register 26 is non-negative, the word pair it addresses lies
inside memory, and the 64-bit value found there is below `2^63`; the value
is then stored into register 24 and returned. A negative address or a
value at or above `2^63` faults in a checked conversion. -/
theorem memory_read_precondition (s : MachState) :
    ((Registers.get 24 s).isSome ↔
      (0 ≤ s.regs 26 ∧ (s.regs 26).toNat * 2 + 1 < MEMORY_SIZE ∧
        ((s.mem ((s.regs 26).toNat * 2) * 4294967296 +
          s.mem ((s.regs 26).toNat * 2 + 1) : Nat) : Int) < 2 ^ 63)) ∧
    (∀ a : Nat, s.regs 26 = (a : Int) → a * 2 + 1 < MEMORY_SIZE →
      ((s.mem (a * 2) * 4294967296 + s.mem (a * 2 + 1) : Nat) : Int) < 2 ^ 63 →
      Registers.get 24 s =
        some (((s.mem (a * 2) * 4294967296 + s.mem (a * 2 + 1) : Nat) : Int),
          { s with
            regs := upd s.regs 24
              ((s.mem (a * 2) * 4294967296 + s.mem (a * 2 + 1) : Nat) : Int) })) := by
  constructor
  · by_cases h26 : 0 ≤ s.regs 26
    · by_cases hb : (s.regs 26).toNat * 2 + 1 < MEMORY_SIZE
      · simp only [Registers.get, getTrigs, runTrigs, runTrig, toUsize,
          Memory.load64] at *
        simp [h26, hb]
        split <;> simp_all
      · simp [Registers.get, getTrigs, runTrigs, runTrig, toUsize,
          Memory.load64, h26, hb]
    · simp [Registers.get, getTrigs, runTrigs, runTrig, toUsize, h26]
  · intro a ha hb hv
    have h26 : 0 ≤ s.regs 26 := by rw [ha]; exact Int.natCast_nonneg a
    have htn : (s.regs 26).toNat = a := by rw [ha]; exact Int.toNat_natCast a
    push_cast at hv
    simp [Registers.get, getTrigs, runTrigs, runTrig, toUsize, Memory.load64,
      h26, htn, hb, hv, upd]

/-- C6 (amended): a read of register 16 polls the input non-blockingly and
always succeeds. An empty stream stores the sentinel `-1`; a pending byte
`b ≠ 0` is consumed and stored as its value; but a pending byte `0` is
consumed and ALSO stored as `-1` (the code maps `Some(Ok(0))` to "no
input"), not as its non-negative value. -/
theorem console_input_poll :
    (∀ s : MachState, s.inp = [] →
      Registers.get 16 s = some (-1, { s with regs := upd s.regs 16 (-1) })) ∧
    (∀ (s : MachState) (rest : List Nat), s.inp = 0 :: rest →
      Registers.get 16 s =
        some (-1, { s with regs := upd s.regs 16 (-1), inp := rest })) ∧
    (∀ (s : MachState) (b : Nat) (rest : List Nat), s.inp = b :: rest → b ≠ 0 →
      Registers.get 16 s =
        some ((b : Int), { s with regs := upd s.regs 16 (b : Int), inp := rest })) := by
  refine ⟨?_, ?_, ?_⟩
  · intro s h
    simp [Registers.get, getTrigs, runTrigs, runTrig, read_noblocking, h, upd]
  · intro s rest h
    simp [Registers.get, getTrigs, runTrigs, runTrig, read_noblocking, h, upd]
  · intro s b rest h hb
    simp [Registers.get, getTrigs, runTrigs, runTrig, read_noblocking, h, hb, upd]

/-- A state with a single pending zero byte on the console. -/
def zeroByteState : MachState := { zeroState with inp := [0] }

/-- Counterexample to C6 as stated: with byte `0` available on the input,
the read of register 16 returns `-1`, not the byte's non-negative value. -/
theorem zero_byte_reads_as_no_input :
    (Registers.get 16 zeroByteState).map Prod.fst = some (-1) ∧
    (-1 : Int) ≠ 0 :=
  ⟨rfl, by decide⟩

/-- A state with pending console bytes 65, 66. -/
def inpState : MachState := { zeroState with inp := [65, 66] }

/-- Witness for C6: the three poll outcomes at concrete states. -/
theorem console_input_poll_witness :
    Registers.get 16 zeroState =
      some (-1, { zeroState with regs := upd zeroState.regs 16 (-1) }) ∧
    Registers.get 16 zeroByteState =
      some (-1, { zeroByteState with regs := upd zeroByteState.regs 16 (-1), inp := [] }) ∧
    Registers.get 16 inpState =
      some ((65 : Int), { inpState with regs := upd inpState.regs 16 (65 : Int), inp := [66] }) :=
  ⟨console_input_poll.1 zeroState rfl,
   console_input_poll.2.1 zeroByteState [] rfl,
   console_input_poll.2.2 inpState 65 [66] rfl (by decide)⟩

/-- Correctness of the fill loop: under the in-range condition each of the
`k` words is the big-endian packing of its 4 source bytes and everything
else is untouched. -/
theorem storeWords_spec (data : List Nat) (base : Nat) :
    ∀ (k : Nat) (m : Nat → Nat) (i : Nat), base ≤ i →
    (i - base) + k ≤ data.length / 4 →
    ∃ m', storeWords data base m i k = some m' ∧
      (∀ t < k, m' (i + t) = pack4 data ((i - base + t) * 4)) ∧
      (∀ j, j < i ∨ i + k ≤ j → m' j = m j) := by
  intro k
  induction k with
  | zero =>
    intro m i _ _
    exact ⟨m, rfl, by omega, fun j _ => rfl⟩
  | succ k ih =>
    intro m i hbase hlen
    have hguard : (i - base) * 4 + 3 < data.length := by omega
    obtain ⟨m', heq, hin, hout⟩ :=
      ih (updW m i (pack4 data ((i - base) * 4))) (i + 1) (by omega) (by omega)
    refine ⟨m', ?_, ?_, ?_⟩
    · simp only [storeWords, if_pos hguard]
      exact heq
    · intro t ht
      cases t with
      | zero =>
        have h0 : m' i = updW m i (pack4 data ((i - base) * 4)) i :=
          hout i (by omega)
        simp only [Nat.add_zero] at *
        rw [h0]
        simp [updW]
      | succ t' =>
        have h1 : i + (t' + 1) = (i + 1) + t' := by omega
        have h2 : i - base + (t' + 1) = (i + 1) - base + t' := by omega
        rw [h1, h2]
        exact hin t' (by omega)
    · intro j hj
      have h1 : m' j = updW m i (pack4 data ((i - base) * 4)) j :=
        hout j (by omega)
      rw [h1]
      have : j ≠ i := by omega
      simp [updW, this]

/-- C5 (amended): when `min(base + len/4, capacity)` is positive, loading
succeeds and writes exactly `min(base + len/4, capacity) - 1 - base`
consecutive words from `base` — one word SHORT of the stated
`floor(len/4)` count (the bound has an extra `- 1`) — each the big-endian
packing of its 4 source bytes; all other memory is unchanged. (When the
minimum is zero the subtraction underflows and the call faults.) -/
theorem load_program_truncation (m : Nat → Nat) (data : List Nat) (base : Nat)
    (h : 0 < min (base + data.length / 4) MEMORY_SIZE) :
    ∃ m', Memory.store m data base = some m' ∧
      (∀ t < min (base + data.length / 4) MEMORY_SIZE - 1 - base,
        m' (base + t) = pack4 data (t * 4)) ∧
      (∀ j, j < base ∨
          base + (min (base + data.length / 4) MEMORY_SIZE - 1 - base) ≤ j →
        m' j = m j) := by
  obtain ⟨m', heq, hin, hout⟩ :=
    storeWords_spec data base
      (min (base + data.length / 4) MEMORY_SIZE - 1 - base) m base
      (le_refl base) (by omega)
  refine ⟨m', ?_, ?_, hout⟩
  · simp only [Memory.store]
    rw [if_neg (by omega)]
    exact heq
  · intro t ht
    have := hin t ht
    simpa using this

/-- Counterexample to C5 as stated: a 4-byte buffer has `floor(4/4) = 1`
complete word, but `store` writes nothing — word 0 stays 0 instead of
becoming `0x01020304`. -/
theorem store_drops_last_full_word :
    (Memory.store (fun _ => 0) [1, 2, 3, 4] 0).map (fun m => m 0) = some 0 ∧
    (0 : Nat) ≠ 16909060 :=
  ⟨rfl, by decide⟩

/-- Witness for C5: an 8-byte buffer at base 0 stores exactly one word,
the big-endian packing `0x01020304` of its first 4 bytes. -/
theorem load_program_truncation_witness :
    ∃ m', Memory.store (fun _ => 0) [1, 2, 3, 4, 5, 6, 7, 8] 0 = some m' ∧
      (∀ t < min (0 + ([1, 2, 3, 4, 5, 6, 7, 8] : List Nat).length / 4)
          MEMORY_SIZE - 1 - 0,
        m' (0 + t) = pack4 [1, 2, 3, 4, 5, 6, 7, 8] (t * 4)) ∧
      (∀ j, j < 0 ∨
          0 + (min (0 + ([1, 2, 3, 4, 5, 6, 7, 8] : List Nat).length / 4)
            MEMORY_SIZE - 1 - 0) ≤ j →
        m' j = (fun _ => 0 : Nat → Nat) j) :=
  load_program_truncation (fun _ => 0) [1, 2, 3, 4, 5, 6, 7, 8] 0
    (by norm_num [MEMORY_SIZE])

/-- The truncating remainder's magnitude is the natural remainder of the
magnitudes. -/
theorem natAbs_tmod (a b : Int) : (a.tmod b).natAbs = a.natAbs % b.natAbs := by
  cases a <;> cases b <;> simp only [Int.tmod] <;> (try rw [Int.natAbs_neg]) <;>
    norm_cast

/-- Truncating division of i64 values stays in range except for
`(-2^63) / (-1)` (Rust's sole division-overflow panic case). -/
theorem tdiv_inI64 {n d : Int} (hn : inI64 n) (hd0 : d ≠ 0)
    (hexc : ¬(n = -(2 ^ 63) ∧ d = -1)) : inI64 (n.tdiv d) := by
  obtain ⟨hn1, hn2⟩ := hn
  have habs : (n.tdiv d).natAbs = n.natAbs / d.natAbs := Int.natAbs_tdiv n d
  have h1 : (n.tdiv d).natAbs ≤ n.natAbs := habs ▸ Nat.div_le_self _ _
  constructor
  · omega
  · by_contra hq
    push_neg at hq
    have hq63 : n.tdiv d = 2 ^ 63 := by omega
    have hna : n.natAbs = 2 ^ 63 := by omega
    have hnn : n = -(2 ^ 63) := by omega
    have hd1 : d.natAbs = 1 := by
      by_contra hd1
      have hd2 : 2 ≤ d.natAbs := by omega
      have hmono : 2 ^ 63 / d.natAbs ≤ 2 ^ 63 / 2 :=
        Nat.div_le_div_left hd2 (by norm_num)
      have hx : (n.tdiv d).natAbs = 2 ^ 63 := by rw [hq63]; norm_num
      rw [habs, hna] at hx
      omega
    rcases (by omega : d = 1 ∨ d = -1) with rfl | rfl
    · rw [Int.tdiv_one] at hq63
      omega
    · exact hexc ⟨hnn, rfl⟩

/-- The truncating remainder of i64 values is always in range when the
divisor is nonzero. -/
theorem tmod_inI64 {n d : Int} (hd : inI64 d) (hd0 : d ≠ 0) :
    inI64 (n.tmod d) := by
  have habs : (n.tmod d).natAbs = n.natAbs % d.natAbs := natAbs_tmod n d
  have h2 : n.natAbs % d.natAbs < d.natAbs := Nat.mod_lt _ (by omega)
  obtain ⟨hd1, hd2⟩ := hd
  constructor <;> omega

/-- A run of `div_trig` (any phase) under the no-overflow condition:
quotient and remainder land in registers 11, 12. -/
theorem div_trig_run {s : MachState} (ph : Nat)
    (hn : inI64 (s.regs 9)) (hd : inI64 (s.regs 10))
    (hexc : ¬(s.regs 9 = -(2 ^ 63) ∧ s.regs 10 = -1)) :
    runTrig .div_trig ph s = some { s with
      regs := upd (upd s.regs 11
        (if s.regs 10 ≠ 0 then (s.regs 9).tdiv (s.regs 10) else s.regs 9))
        12 (if s.regs 10 ≠ 0 then (s.regs 9).tmod (s.regs 10) else 0) } := by
  by_cases h0 : s.regs 10 = 0
  · simp [runTrig, checkedI64, h0]
  · have h1 : inI64 ((s.regs 9).tdiv (s.regs 10)) := tdiv_inI64 hn h0 hexc
    have h2 : inI64 ((s.regs 9).tmod (s.regs 10)) := tmod_inI64 hd h0
    simp [runTrig, checkedI64, h0, h1, h2]

/-- Writing the dividend register 9 runs `div_trig` against the current
divisor; registers 9 and 10 end up as expected and 11, 12 hold the
recomputed quotient/remainder. -/
theorem set9_run (v : Int) (s : MachState) (hv : inI64 v)
    (h10 : inI64 (s.regs 10))
    (hexc : ¬(v = -(2 ^ 63) ∧ s.regs 10 = -1)) :
    ∃ s', Registers.set 9 v s = some s' ∧ s'.regs 9 = v ∧
      s'.regs 10 = s.regs 10 ∧
      s'.regs 11 = (if s.regs 10 ≠ 0 then v.tdiv (s.regs 10) else v) ∧
      s'.regs 12 = (if s.regs 10 ≠ 0 then v.tmod (s.regs 10) else 0) := by
  have hrun := @div_trig_run { s with regs := upd s.regs 9 v } 1
    (by simpa [upd] using hv) (by simpa [upd] using h10)
    (by simpa [upd] using hexc)
  have hset : Registers.set 9 v s =
      runTrigs [Trig.div_trig] 1 { s with regs := upd s.regs 9 v } := by
    simp only [Registers.set]
    rw [if_pos (by norm_num : (9 : Nat) < 36)]
    rfl
  rw [hset]
  simp only [runTrigs, hrun]
  refine ⟨_, rfl, ?_, ?_, ?_, ?_⟩ <;> simp [upd]

/-- Writing the divisor register 10 runs `div_trig` against the current
dividend; registers 9 and 10 end up as expected and 11, 12 hold the
recomputed quotient/remainder. -/
theorem set10_run (v : Int) (s : MachState) (h9 : inI64 (s.regs 9))
    (hv : inI64 v)
    (hexc : ¬(s.regs 9 = -(2 ^ 63) ∧ v = -1)) :
    ∃ s', Registers.set 10 v s = some s' ∧ s'.regs 9 = s.regs 9 ∧
      s'.regs 10 = v ∧
      s'.regs 11 = (if v ≠ 0 then (s.regs 9).tdiv v else s.regs 9) ∧
      s'.regs 12 = (if v ≠ 0 then (s.regs 9).tmod v else 0) := by
  have hrun := @div_trig_run { s with regs := upd s.regs 10 v } 1
    (by simpa [upd] using h9) (by simpa [upd] using hv)
    (by simpa [upd] using hexc)
  have hset : Registers.set 10 v s =
      runTrigs [Trig.div_trig] 1 { s with regs := upd s.regs 10 v } := by
    simp only [Registers.set]
    rw [if_pos (by norm_num : (10 : Nat) < 36)]
    rfl
  rw [hset]
  simp only [runTrigs, hrun]
  refine ⟨_, rfl, ?_, ?_, ?_, ?_⟩ <;> simp [upd]

/-- The defining properties of the computed quotient/remainder pair. -/
theorem div_result_props {n d q r : Int}
    (hq : q = (if d ≠ 0 then n.tdiv d else n))
    (hr : r = (if d ≠ 0 then n.tmod d else 0)) :
    (d ≠ 0 → q * d + r = n ∧ r.natAbs < d.natAbs) ∧
    (d = 0 → q = n ∧ r = 0) := by
  constructor
  · intro hd0
    rw [hq, hr, if_pos hd0, if_pos hd0]
    constructor
    · rw [mul_comm]
      exact Int.tdiv_add_tmod n d
    · rw [natAbs_tmod]
      exact Nat.mod_lt _ (Int.natAbs_pos.mpr hd0)
  · intro hd0
    simp [hq, hr, hd0]

/-- C4 (amended): writing dividend `n` to register 9 and divisor `d` to
register 10 via `set`, in either order, leaves quotient and remainder in
registers 11 and 12 with `q*d + r = n` and `|r| < |d|` for `d ≠ 0`, and
`q = n`, `r = 0` for `d = 0` — EXCEPT that the division overflow case
`n = -2^63, d = -1` (including transiently against the old register
contents) faults instead of completing. -/
theorem divide_semantics {s : MachState} {n d : Int}
    (hn : inI64 n) (hd : inI64 d)
    (hs9 : inI64 (s.regs 9)) (hs10 : inI64 (s.regs 10))
    (hA : ¬(n = -(2 ^ 63) ∧ s.regs 10 = -1))
    (hB : ¬(s.regs 9 = -(2 ^ 63) ∧ d = -1))
    (hC : ¬(n = -(2 ^ 63) ∧ d = -1)) :
    (∃ s', (Registers.set 9 n s).bind (Registers.set 10 d) = some s' ∧
      (d ≠ 0 → s'.regs 11 * d + s'.regs 12 = n ∧
        (s'.regs 12).natAbs < d.natAbs) ∧
      (d = 0 → s'.regs 11 = n ∧ s'.regs 12 = 0)) ∧
    (∃ s', (Registers.set 10 d s).bind (Registers.set 9 n) = some s' ∧
      (d ≠ 0 → s'.regs 11 * d + s'.regs 12 = n ∧
        (s'.regs 12).natAbs < d.natAbs) ∧
      (d = 0 → s'.regs 11 = n ∧ s'.regs 12 = 0)) := by
  constructor
  · obtain ⟨s2, e2, f9, f10, -, -⟩ := set9_run n s hn hs10 hA
    obtain ⟨s4, e4, g9, g10, g11, g12⟩ :=
      set10_run d s2 (by rw [f9]; exact hn) hd (by rw [f9]; exact hC)
    rw [f9] at g11 g12
    refine ⟨s4, ?_, div_result_props g11 g12⟩
    rw [e2]
    simpa using e4
  · obtain ⟨t2, e2, f9, f10, -, -⟩ := set10_run d s hs9 hd hB
    obtain ⟨t4, e4, g9, g10, g11, g12⟩ :=
      set9_run n t2 hn (by rw [f10]; exact hd) (by rw [f10]; exact hC)
    rw [f10] at g11 g12
    refine ⟨t4, ?_, div_result_props g11 g12⟩
    rw [e2]
    simpa using e4

/-- Counterexample to C4 as stated: dividend `-2^63` and divisor `-1` make
the division fault (Rust division overflow) instead of producing a
quotient with no fault. -/
theorem divide_min_by_neg_one_faults :
    (Registers.set 9 (-(2 ^ 63)) zeroState).bind (Registers.set 10 (-1)) =
      none := by rfl

/-- Witness for C4: dividing 7 by 2 in both write orders. -/
theorem divide_semantics_witness :
    (∃ s', (Registers.set 9 7 zeroState).bind (Registers.set 10 2) = some s' ∧
      ((2 : Int) ≠ 0 → s'.regs 11 * 2 + s'.regs 12 = 7 ∧
        (s'.regs 12).natAbs < (2 : Int).natAbs) ∧
      ((2 : Int) = 0 → s'.regs 11 = 7 ∧ s'.regs 12 = 0)) ∧
    (∃ s', (Registers.set 10 2 zeroState).bind (Registers.set 9 7) = some s' ∧
      ((2 : Int) ≠ 0 → s'.regs 11 * 2 + s'.regs 12 = 7 ∧
        (s'.regs 12).natAbs < (2 : Int).natAbs) ∧
      ((2 : Int) = 0 → s'.regs 11 = 7 ∧ s'.regs 12 = 0)) :=
  divide_semantics (by decide) (by decide) (by decide) (by decide)
    (by decide) (by decide) (by decide)

/-- C9 (amended): every callback registered as a WRITE-trigger of an index
leaves that index unchanged when it runs from `set` — the stored value is
never overwritten. (Read-triggers, by contrast, do mutate the register
being read: that is how read-triggered results are produced; see the
counterexample.) -/
theorem set_triggers_preserve_target :
    ∀ (i : Nat) (cb : Trig), cb ∈ setTrigs i →
      ∀ s s' : MachState, runTrig cb 1 s = some s' → s'.regs i = s.regs i := by
  intro i cb hmem s s' h
  by_cases h2 : i = 2 ∨ i = 5 ∨ i = 8 ∨ i = 11 ∨ i = 12 ∨ i = 15 ∨ i = 23
  · exfalso
    rcases h2 with rfl | rfl | rfl | rfl | rfl | rfl | rfl <;>
      simp [setTrigs] at hmem
  · push_neg at h2
    exact runTrig_set_regs_pres h i h2

/-- The state used to exhibit a read-trigger mutating the read register:
registers 20 (cond) = 1, 22 (ifnonzero) = 6, 23 (result) = 0. -/
def atzState : MachState :=
  { zeroState with regs := upd (upd zeroState.regs 20 1) 22 6 }

/-- Counterexample to C9 as stated: `atz_trig` is registered as a
read-trigger of register 23, and running it during a read of register 23
changes that very register from 0 to 6. -/
theorem get_trigger_mutates_read_register :
    Trig.atz_trig ∈ getTrigs 23 ∧
    (runTrig Trig.atz_trig 0 atzState).map (fun s => s.regs 23) = some 6 ∧
    atzState.regs 23 = 0 ∧ (6 : Int) ≠ 0 :=
  ⟨by decide, rfl, rfl, by decide⟩

/-- The state after `add_trig` runs from a write to register 0 of the zero
state. -/
def addAfter : MachState := { zeroState with regs := upd zeroState.regs 2 0 }

/-- Witness for C9: `add_trig`, registered on register 0's write list,
leaves register 0 unchanged. -/
theorem set_triggers_preserve_target_witness :
    addAfter.regs 0 = zeroState.regs 0 :=
  set_triggers_preserve_target 0 Trig.add_trig (by decide) zeroState addAfter
    (by rfl)

/-- A state with address register 26 = 3 and the 64-bit value
`2^32 + 5` stored at word pair (6, 7). -/
def memState : MachState :=
  { zeroState with
    regs := upd zeroState.regs 26 3,
    mem := updW (updW zeroState.mem 6 1) 7 5 }

/-- Witness for C10: reading the data port at address 3 returns the stored
64-bit value `2^32 + 5`. -/
theorem memory_read_precondition_witness :
    Registers.get 24 memState =
      some (((memState.mem (3 * 2) * 4294967296 +
          memState.mem (3 * 2 + 1) : Nat) : Int),
        { memState with
          regs := upd memState.regs 24
            ((memState.mem (3 * 2) * 4294967296 +
              memState.mem (3 * 2 + 1) : Nat) : Int) }) :=
  (memory_read_precondition memState).2 3 (by decide) (by decide) (by decide)
